import Mathlib

/-!
Verification of the xv6 buffer cache (kernel/bio.c) and physical page
allocator (kernel/kalloc.c) of this repository, via a shallow embedding.

Modelling conventions:
* Machine integers: block numbers, devices, addresses and tick stamps are
  `Nat`; reference counts are `Int` (the allocator's `ref` array is `int`
  in C, and the cache's counts are only ever compared against 0).
* The intrusive doubly linked bucket lists of `struct buf` and the
  intrusive free list of `struct run` are modelled as lists of buffer
  indices / page addresses, following the index-arena representation the
  design notes of the repository prescribe. Unlinking a node
  (`b->next->prev = b->prev; b->prev->next = b->next`) becomes erasing the
  first occurrence of its index; linking at the head becomes consing.
* Spinlock acquire/release pairs delimit atomic sections and have no
  effect in this sequential model; the sleeplock of a buffer is modelled
  by a `lockHeld` flag (held by the modelled caller), since
  `holdingsleep` is what `bwrite`/`brelse` branch on.
* `panic` is modelled by `Option`/an explicit `panic` result: `none`
  means the kernel halts.
* Constants that live in headers missing from the sources (`NBUF` from
  param.h, `PHYSTOP`/`end` from memlayout.h/kernel.ld) are parameters:
  the pool size is the length of the buffer list, and the allocator takes
  a configuration holding the two addresses.
-/

/-- bio.c line 28: size of the bcache bucket array. -/
def NBUCKET : Nat := 17

/-- One cache slot (`struct buf`, fields as used by bio.c): device,
block number, validity flag, reference count, recency stamp, block data
(abstracted to one value), and whether the modelled caller holds the
buffer's sleeplock. -/
structure Buf where
  dev : Nat
  blockno : Nat
  valid : Bool
  refcnt : Int
  ticks : Nat
  data : Nat
  lockHeld : Bool
deriving DecidableEq, Repr

instance : Inhabited Buf := ⟨⟨0, 0, false, 0, 0, 0, false⟩⟩

/-- The bcache: the pool `buf[NBUF]` as a list, the 17 bucket lists as
lists of pool indices, and the kernel's global `ticks` clock (read by
`brelse`). -/
structure Cache where
  bufs : List Buf
  bucket : Nat → List Nat
  curTicks : Nat

/-- Read pool slot `i` (always in range in reachable states). -/
def getBuf (s : Cache) (i : Nat) : Buf := s.bufs.getD i default

/-- Update pool slot `i` with `f`. -/
def updL : List Buf → Nat → (Buf → Buf) → List Buf
  | [], _, _ => []
  | b :: rest, 0, f => f b :: rest
  | b :: rest, n+1, f => b :: updL rest n f

/-- bio.c lines 72-79: the hit scan of bucket list `lst` for key
`(dev, bno)`; returns the index of the first matching buffer. Bucket
entries are always indices of pool slots, so the range guard never fires
in reachable states. -/
def findHit (bufs : List Buf) : List Nat → Nat → Nat → Option Nat
  | [], _, _ => none
  | j :: rest, dev, bno =>
      if j < bufs.length ∧ (bufs.getD j default).dev = dev ∧
          (bufs.getD j default).blockno = bno
      then some j else findHit bufs rest dev bno

/-- bio.c lines 84-90: one pass of `for(i = 0; i < NBUF; ++i)` keeping the
running candidate `lb` as `(index, its ticks)`. The C guard
`(lb == 0 && b->refcnt == 0) || (b->refcnt == 0 && lb->ticks > b->ticks)`
short-circuits, so with `lb` null it reduces to `b->refcnt == 0`. `rem`
counts the remaining iterations (`rem = NBUF - i`). -/
def scanFrom (bufs : List Buf) : Nat → Nat → Option (Nat × Nat) → Option (Nat × Nat)
  | 0, _, lb => lb
  | rem+1, i, lb =>
      let b := bufs.getD i default
      scanFrom bufs rem (i+1)
        (match lb with
         | none => if b.refcnt = 0 then some (i, b.ticks) else none
         | some (k, t) => if b.refcnt = 0 ∧ t > b.ticks then some (i, b.ticks) else some (k, t))

/-- The whole LRU scan of bio.c lines 83-90 over the pool. -/
def findLRU (bufs : List Buf) : Option (Nat × Nat) :=
  scanFrom bufs bufs.length 0 none

/-- Outcome of `bget`: a cache hit at pool index `i`, recycling of pool
index `i`, or `panic("bget: no buffers")`. -/
inductive BRes where
  | hit (i : Nat)
  | recycled (i : Nat)
  | panic
deriving DecidableEq, Repr

/-- Which branch bget (bio.c lines 64-107) takes on state `s` for key
`(dev, bno)`. -/
def bgetRes (s : Cache) (dev bno : Nat) : BRes :=
  match findHit s.bufs (s.bucket (bno % NBUCKET)) dev bno with
  | some i => BRes.hit i
  | none =>
      match findLRU s.bufs with
      | some (i, _) => BRes.recycled i
      | none => BRes.panic

/-- bget (bio.c lines 64-107): `none` is the `panic("bget: no buffers")`
path; otherwise the returned pool index and new state. On a hit the
count is incremented and the sleeplock taken; on recycling the chosen
buffer is rebound to the key, invalidated, its count set to 1, linked at
the head of the target bucket, and its sleeplock taken. -/
def bgetApply (s : Cache) (dev bno : Nat) : Option (Nat × Cache) :=
  match bgetRes s dev bno with
  | BRes.hit i =>
      let bufs2 := updL s.bufs i (fun b => { b with refcnt := b.refcnt + 1, lockHeld := true })
      some (i, { s with bufs := bufs2 })
  | BRes.recycled i =>
      let bufs2 := updL s.bufs i (fun b =>
        { b with dev := dev, blockno := bno, valid := false, refcnt := 1, lockHeld := true })
      let bucket2 := fun k => if k = bno % NBUCKET then i :: s.bucket k else s.bucket k
      some (i, { s with bufs := bufs2, bucket := bucket2 })
  | BRes.panic => none

/-- bread (bio.c lines 110-121): bget, then if the buffer is not valid,
one `virtio_disk_rw(b, 0)` filling it from `disk` and marking it valid.
Returns the pool index, the new state, and the number of disk reads
performed. -/
def bread (disk : Nat → Nat → Nat) (s : Cache) (dev bno : Nat) :
    Option (Nat × Cache × Nat) :=
  match bgetApply s dev bno with
  | none => none
  | some (i, s1) =>
      if (getBuf s1 i).valid then some (i, s1, 0)
      else
        some (i, { s1 with bufs := updL s1.bufs i (fun b =>
          { b with data := disk b.dev b.blockno, valid := true }) }, 1)

/-- One call to the disk collaborator `virtio_disk_rw(b, write)`. -/
structure DiskOp where
  dev : Nat
  blockno : Nat
  data : Nat
  isWrite : Bool
deriving DecidableEq, Repr

/-- bwrite (bio.c lines 124-130): panics (`none`) unless the caller holds
the sleeplock; otherwise issues `virtio_disk_rw(b, 1)` and leaves the
cache as it was. -/
def bwrite (s : Cache) (i : Nat) : Option (DiskOp × Cache) :=
  if (getBuf s i).lockHeld then
    some (⟨(getBuf s i).dev, (getBuf s i).blockno, (getBuf s i).data, true⟩, s)
  else none

/-- brelse past its lock check (bio.c lines 140-153): release the
sleeplock and decrement the count; when the count reaches zero, unlink
the buffer from its bucket's list and stamp it with the current
`ticks`. -/
def brelseOk (s : Cache) (i : Nat) : Cache :=
  if (getBuf s i).refcnt - 1 = 0 then
    let bufs2 := updL s.bufs i (fun b =>
      { b with lockHeld := false, refcnt := b.refcnt - 1, ticks := s.curTicks })
    let key := (getBuf s i).blockno % NBUCKET
    let bucket2 := fun k => if k = key then (s.bucket key).erase i else s.bucket k
    { s with bufs := bufs2, bucket := bucket2 }
  else
    { s with bufs := updL s.bufs i (fun b =>
        { b with lockHeld := false, refcnt := b.refcnt - 1 }) }

/-- brelse (bio.c lines 134-154): panics (`none`) unless the caller
holds the sleeplock. -/
def brelse (s : Cache) (i : Nat) : Option Cache :=
  if (getBuf s i).lockHeld then some (brelseOk s i) else none

/-- bpin (bio.c lines 156-162). -/
def bpin (s : Cache) (i : Nat) : Cache :=
  { s with bufs := updL s.bufs i (fun b => { b with refcnt := b.refcnt + 1 }) }

/-- bunpin (bio.c lines 164-170). -/
def bunpin (s : Cache) (i : Nat) : Cache :=
  { s with bufs := updL s.bufs i (fun b => { b with refcnt := b.refcnt - 1 }) }

/-- The state after binit (bio.c lines 43-59) on a pool of `n` buffers:
C zero-initialises the static pool, binit empties every bucket list and
no buffer is linked anywhere. -/
def initCache (n : Nat) : Cache :=
  { bufs := List.replicate n default, bucket := fun _ => [], curTicks := 0 }

/-- One step of the cache under its documented usage: the clock may
advance; `bget` runs on any key (when it does not panic); `brelse` is
applied to a held buffer carrying a reference; `bpin`/`bunpin` are
applied to a buffer currently carrying a reference (pin keeps a held
buffer resident, unpin drops a previously pinned reference). -/
inductive CStep : Cache → Cache → Prop where
  | tick (s : Cache) : CStep s { s with curTicks := s.curTicks + 1 }
  | get (s : Cache) (dev bno i : Nat) (s2 : Cache) :
      bgetApply s dev bno = some (i, s2) → CStep s s2
  | rel (s : Cache) (i : Nat) (s2 : Cache) :
      1 ≤ (getBuf s i).refcnt → brelse s i = some s2 → CStep s s2
  | pin (s : Cache) (i : Nat) :
      i < s.bufs.length → 1 ≤ (getBuf s i).refcnt → CStep s (bpin s i)
  | unpin (s : Cache) (i : Nat) :
      i < s.bufs.length → 1 ≤ (getBuf s i).refcnt → CStep s (bunpin s i)

/-- States of an `n`-buffer cache reachable from boot. -/
def Reachable (n : Nat) (s : Cache) : Prop :=
  Relation.ReflTransGen CStep (initCache n) s

/-- Reference counts of pool slots never go negative. -/
def RefInv (s : Cache) : Prop :=
  ∀ i, i < s.bufs.length → 0 ≤ (getBuf s i).refcnt

/-- Every buffer carrying a reference is linked into the bucket list
indexed by its block number mod NBUCKET. -/
def BucketInv (s : Cache) : Prop :=
  ∀ i, i < s.bufs.length → (getBuf s i).refcnt ≠ 0 →
    i ∈ s.bucket ((getBuf s i).blockno % NBUCKET)

/-- The cache invariant maintained by every step. -/
def CacheInv (s : Cache) : Prop := RefInv s ∧ BucketInv s

/-- riscv.h: page size. -/
def PGSIZE : Nat := 4096

/-- riscv.h: round `a` up to the next page boundary. -/
def PGROUNDUP (a : Nat) : Nat := ((a + PGSIZE - 1) / PGSIZE) * PGSIZE

/-- Link-time constants of kalloc.c that live outside the sources:
`endA` is `end` (first address after the kernel image, from kernel.ld),
`physTop` is `PHYSTOP` (from memlayout.h). -/
structure KConfig where
  endA : Nat
  physTop : Nat
deriving DecidableEq, Repr

/-- PHYSTOP is a page boundary (0x88000000 in xv6), so the managed range
is a whole number of pages. -/
def CfgOk (cfg : KConfig) : Prop := cfg.physTop % PGSIZE = 0

/-- Allocator state: the free list (`kmem.freelist`, as the list of page
addresses, head first), the reference count array `ref[PHYSTOP/PGSIZE]`
indexed by page number, and physical memory as bytes (page address,
offset in page). -/
structure KState where
  freelist : List Nat
  ref : Nat → Int
  mem : Nat → Nat → Nat

/-- kalloc.c lines 21-24. -/
def getref (s : KState) (pa : Nat) : Int := s.ref (pa / PGSIZE)

/-- kalloc.c lines 26-29. -/
def addref (s : KState) (pa : Nat) : KState :=
  { s with ref := fun j => if j = pa / PGSIZE then s.ref j + 1 else s.ref j }

/-- kalloc.c lines 31-36: decrement only when the count is positive. -/
def subref (s : KState) (pa : Nat) : KState :=
  if 0 < getref s pa then
    { s with ref := fun j => if j = pa / PGSIZE then s.ref j - 1 else s.ref j }
  else s

/-- One `memset(pa, v, PGSIZE)`: every byte of the page at `pa` becomes
`v`. -/
def kmemset (s : KState) (pa v : Nat) : KState :=
  { s with mem := fun a => if a = pa then (fun _ => v) else s.mem a }

/-- The test of kalloc.c line 72: addresses whose free is not a panic. -/
def ValidPA (cfg : KConfig) (pa : Nat) : Prop :=
  pa % PGSIZE = 0 ∧ cfg.endA ≤ pa ∧ pa < cfg.physTop

instance (cfg : KConfig) (pa : Nat) : Decidable (ValidPA cfg pa) := by
  unfold ValidPA; infer_instance

/-- kfree (kalloc.c lines 67-90): `none` is the `panic("kfree")` path on
an unaligned or out-of-range address; otherwise `subref`, and when the
count is then zero, poison the page with byte 1 and push it on the free
list head. -/
def kfree (cfg : KConfig) (s : KState) (pa : Nat) : Option KState :=
  if ¬ ValidPA cfg pa then none
  else if getref (subref s pa) pa = 0 then
    some { kmemset (subref s pa) pa 1 with
           freelist := pa :: (kmemset (subref s pa) pa 1).freelist }
  else some (subref s pa)

/-- kalloc (kalloc.c lines 95-111): pop the free-list head if any,
`addref` it, poison it with byte 5, return its address; `(none, s)` is
the out-of-memory result (`return 0`). -/
def kalloc (s : KState) : Option Nat × KState :=
  match s.freelist with
  | [] => (none, s)
  | r :: rest => (some r, kmemset { addref s r with freelist := rest } r 5)

/-- The pages freerange (kalloc.c lines 54-61) walks: `p` from
`PGROUNDUP(pa_start)` while `p + PGSIZE <= pa_end`, in ascending order. -/
def pageList (cfg : KConfig) : List Nat :=
  (List.range ((cfg.physTop - PGROUNDUP cfg.endA) / PGSIZE)).map
    (fun k => PGROUNDUP cfg.endA + PGSIZE * k)

/-- freerange (kalloc.c lines 54-61): free every page of the range in
ascending order. Each of these frees succeeds (the addresses are aligned
and in range), so the `getD` fallback never fires. -/
def freerange (cfg : KConfig) (s : KState) : KState :=
  (pageList cfg).foldl (fun t p => (kfree cfg t p).getD t) s

/-- kinit (kalloc.c lines 47-52) from power-on contents `mem0`: the C
statics zero-initialise `ref` and the empty free list, then freerange
runs over the managed range. -/
def kinitState (cfg : KConfig) (mem0 : Nat → Nat → Nat) : KState :=
  freerange cfg { freelist := [], ref := fun _ => 0, mem := mem0 }

/-- One allocator step under its documented usage: `kalloc` anytime;
`kfree` on a page currently holding a reference; `add_reference` on a
page holding a reference (copy-on-write sharing of an allocated page);
`remove_reference` on a page holding at least two (one sharer of a
shared page drops out without freeing it). -/
inductive KStep (cfg : KConfig) : KState → KState → Prop where
  | alloc (s : KState) : KStep cfg s (kalloc s).2
  | freeStep (s : KState) (pa : Nat) (s2 : KState) :
      1 ≤ getref s pa → kfree cfg s pa = some s2 → KStep cfg s s2
  | addrefStep (s : KState) (pa : Nat) :
      ValidPA cfg pa → 1 ≤ getref s pa → KStep cfg s (addref s pa)
  | subrefStep (s : KState) (pa : Nat) :
      ValidPA cfg pa → 2 ≤ getref s pa → KStep cfg s (subref s pa)

/-- Allocator states reachable from some boot memory contents. -/
def ReachableK (cfg : KConfig) (s : KState) : Prop :=
  ∃ mem0, Relation.ReflTransGen (KStep cfg) (kinitState cfg mem0) s

/-- The allocator invariant: counts are never negative, the free list
has no duplicates and holds only managed pages, and a managed page is on
the free list exactly when its count is zero. -/
def KInv (cfg : KConfig) (s : KState) : Prop :=
  (∀ j, 0 ≤ s.ref j) ∧
  s.freelist.Nodup ∧
  (∀ q ∈ s.freelist, ValidPA cfg q) ∧
  (∀ pa, ValidPA cfg pa → (pa ∈ s.freelist ↔ getref s pa = 0))

/-- A one-buffer cache in which slot 0 is bound to (dev 1, block 5),
held and referenced twice: the state right after `bget(1,5)` and a
`bpin`. Used to instantiate the buffer-cache theorems. -/
def wCache : Cache :=
  { bufs := [⟨1, 5, true, 2, 7, 0, true⟩],
    bucket := fun k => if k = 5 then [0] else [],
    curTicks := 9 }

/-- Loop invariant of the LRU scan (bio.c lines 84-90) once the slots
below `bound` have been examined: a `none` candidate means no
zero-reference slot was seen; a candidate `(k, t)` is a zero-reference
slot whose stamp `t` is minimal among the examined zero-reference slots,
and every earlier zero-reference slot has a strictly larger stamp (ties
keep the earlier slot). -/
def ScanInv (bufs : List Buf) (bound : Nat) : Option (Nat × Nat) → Prop
  | none => ∀ j, j < bound → j < bufs.length → (bufs.getD j default).refcnt ≠ 0
  | some (k, t) =>
      k < bound ∧ k < bufs.length ∧ (bufs.getD k default).refcnt = 0 ∧
      t = (bufs.getD k default).ticks ∧
      (∀ j, j < bound → j < bufs.length → (bufs.getD j default).refcnt = 0 →
        t ≤ (bufs.getD j default).ticks) ∧
      (∀ j, j < k → (bufs.getD j default).refcnt = 0 → t < (bufs.getD j default).ticks)

/-- A three-buffer cache for exercising the LRU scan: slot 0 is
referenced, slots 1 and 2 are zero-reference with equal stamps, so slot
1 must win the tie. -/
def lruCache : Cache :=
  { bufs := [⟨0, 0, false, 1, 0, 0, false⟩, ⟨1, 3, false, 0, 5, 0, false⟩,
             ⟨1, 7, true, 0, 5, 0, false⟩],
    bucket := fun _ => [], curTicks := 10 }

/-- A two-page configuration (managed range from 4096 up to 12288,
holding pages 4096 and 8192) used to instantiate the allocator
theorems. -/
def cexCfg : KConfig := ⟨4096, 12288⟩

/-- The allocator state right after kinit on `cexCfg` with all-zero
boot memory: free list [8192, 4096], all counts zero. -/
def cexInit : KState := kinitState cexCfg (fun _ _ => 0)

theorem length_updL (l : List Buf) (i : Nat) (f : Buf → Buf) :
    (updL l i f).length = l.length := by
  induction l generalizing i with
  | nil => rfl
  | cons b rest ih =>
      cases i with
      | zero => rfl
      | succ n => simpa [updL] using ih n

theorem getD_updL_self (l : List Buf) (i : Nat) (f : Buf → Buf) (h : i < l.length) :
    (updL l i f).getD i default = f (l.getD i default) := by
  induction l generalizing i with
  | nil => simp at h
  | cons b rest ih =>
      cases i with
      | zero => rfl
      | succ n =>
          simp only [updL, List.getD_cons_succ]
          exact ih n (by simpa using h)

theorem getD_updL_ne (l : List Buf) (i j : Nat) (f : Buf → Buf) (h : j ≠ i) :
    (updL l i f).getD j default = l.getD j default := by
  induction l generalizing i j with
  | nil => rfl
  | cons b rest ih =>
      cases i with
      | zero => cases j with
          | zero => exact absurd rfl h
          | succ m => rfl
      | succ n =>
          cases j with
          | zero => rfl
          | succ m =>
              simp only [updL, List.getD_cons_succ]
              exact ih n m (by omega)

/-- C7: release(buffer), called while holding the buffer's exclusive
lock, decrements the buffer's reference count by exactly one; if and
only if the resulting count is zero, the buffer is unlinked from its
bucket's recency list and its recency stamp is set to the current
logical time; when the resulting count is nonzero, its list links and
stamp are unchanged. -/
theorem brelse_decrements_and_unlinks_iff_zero (s : Cache) (i : Nat)
    (hi : i < s.bufs.length) (hheld : (getBuf s i).lockHeld = true) :
    ∃ s2, brelse s i = some s2 ∧
      (getBuf s2 i).refcnt = (getBuf s i).refcnt - 1 ∧
      ((getBuf s i).refcnt - 1 = 0 →
        s2.bucket ((getBuf s i).blockno % NBUCKET)
            = (s.bucket ((getBuf s i).blockno % NBUCKET)).erase i ∧
        (∀ k, k ≠ (getBuf s i).blockno % NBUCKET → s2.bucket k = s.bucket k) ∧
        (getBuf s2 i).ticks = s.curTicks) ∧
      ((getBuf s i).refcnt - 1 ≠ 0 →
        s2.bucket = s.bucket ∧ (getBuf s2 i).ticks = (getBuf s i).ticks) := by
  refine ⟨brelseOk s i, by rw [brelse, if_pos hheld], ?_, ?_, ?_⟩
  · by_cases hz : (getBuf s i).refcnt - 1 = 0
    · simp only [brelseOk, if_pos hz]
      simp only [getBuf]
      rw [getD_updL_self _ _ _ hi]
    · simp only [brelseOk, if_neg hz]
      simp only [getBuf]
      rw [getD_updL_self _ _ _ hi]
  · intro hz
    refine ⟨?_, ?_, ?_⟩
    · simp [brelseOk, if_pos hz]
    · intro k hk
      simp only [brelseOk, if_pos hz]
      exact if_neg hk
    · simp only [brelseOk, if_pos hz]
      simp only [getBuf]
      rw [getD_updL_self _ _ _ hi]
  · intro hz
    refine ⟨?_, ?_⟩
    · simp only [brelseOk, if_neg hz]
    · simp only [brelseOk, if_neg hz]
      simp only [getBuf]
      rw [getD_updL_self _ _ _ hi]

/-- C7 witness: the release theorem applied to the concrete held cache
`wCache` at slot 0. -/
theorem brelse_decrements_witness :
    0 < wCache.bufs.length ∧ (getBuf wCache 0).lockHeld = true ∧
    (∃ s2, brelse wCache 0 = some s2 ∧
      (getBuf s2 0).refcnt = (getBuf wCache 0).refcnt - 1 ∧
      ((getBuf wCache 0).refcnt - 1 = 0 →
        s2.bucket ((getBuf wCache 0).blockno % NBUCKET)
            = (wCache.bucket ((getBuf wCache 0).blockno % NBUCKET)).erase 0 ∧
        (∀ k, k ≠ (getBuf wCache 0).blockno % NBUCKET → s2.bucket k = wCache.bucket k) ∧
        (getBuf s2 0).ticks = wCache.curTicks) ∧
      ((getBuf wCache 0).refcnt - 1 ≠ 0 →
        s2.bucket = wCache.bucket ∧ (getBuf s2 0).ticks = (getBuf wCache 0).ticks)) :=
  ⟨by decide, rfl, brelse_decrements_and_unlinks_iff_zero wCache 0 (by decide) rfl⟩

theorem scanFrom_inv (bufs : List Buf) :
    ∀ (rem i : Nat) (lb : Option (Nat × Nat)), i + rem = bufs.length →
      ScanInv bufs i lb → ScanInv bufs bufs.length (scanFrom bufs rem i lb) := by
  intro rem
  induction rem with
  | zero =>
      intro i lb h hinv
      have hi : i = bufs.length := by omega
      rw [← hi]
      exact hinv
  | succ n ih =>
      intro i lb h hinv
      have hilen : i < bufs.length := by omega
      show ScanInv bufs bufs.length (scanFrom bufs n (i + 1) _)
      apply ih (i + 1) _ (by omega)
      cases lb with
      | none =>
          show ScanInv bufs (i + 1)
            (if (bufs.getD i default).refcnt = 0 then
              some (i, (bufs.getD i default).ticks) else none)
          by_cases hz : (bufs.getD i default).refcnt = 0
          · rw [if_pos hz]
            refine ⟨by omega, hilen, hz, rfl, ?_, ?_⟩
            · intro j hj hjl hzj
              rcases Nat.lt_succ_iff_lt_or_eq.mp hj with hj2 | hj2
              · exact absurd hzj (hinv j hj2 hjl)
              · subst hj2; exact le_refl _
            · intro j hj hzj
              exact absurd hzj (hinv j hj (by omega))
          · rw [if_neg hz]
            intro j hj hjl hzj
            rcases Nat.lt_succ_iff_lt_or_eq.mp hj with hj2 | hj2
            · exact hinv j hj2 hjl hzj
            · subst hj2; exact hz hzj
      | some kt =>
          obtain ⟨k, t⟩ := kt
          obtain ⟨hkb, hkl, hzk, htk, hmin, hfirst⟩ := hinv
          show ScanInv bufs (i + 1)
            (if (bufs.getD i default).refcnt = 0 ∧ t > (bufs.getD i default).ticks then
              some (i, (bufs.getD i default).ticks) else some (k, t))
          by_cases hc : (bufs.getD i default).refcnt = 0 ∧ t > (bufs.getD i default).ticks
          · rw [if_pos hc]
            refine ⟨by omega, hilen, hc.1, rfl, ?_, ?_⟩
            · intro j hj hjl hzj
              rcases Nat.lt_succ_iff_lt_or_eq.mp hj with hj2 | hj2
              · exact le_of_lt (lt_of_lt_of_le hc.2 (hmin j hj2 hjl hzj))
              · subst hj2; exact le_refl _
            · intro j hj hzj
              rcases Nat.lt_or_ge j k with hj2 | hj2
              · exact lt_of_lt_of_le hc.2 (le_of_lt (hfirst j hj2 hzj))
              · exact lt_of_lt_of_le hc.2 (hmin j (by omega) (by omega) hzj)
          · rw [if_neg hc]
            refine ⟨by omega, hkl, hzk, htk, ?_, hfirst⟩
            intro j hj hjl hzj
            rcases Nat.lt_succ_iff_lt_or_eq.mp hj with hj2 | hj2
            · exact hmin j hj2 hjl hzj
            · subst hj2
              by_contra hlt
              exact hc ⟨hzj, by omega⟩

/-- The LRU scan's result satisfies the loop invariant at the end of the
pool. -/
theorem findLRU_spec (bufs : List Buf) : ScanInv bufs bufs.length (findLRU bufs) :=
  scanFrom_inv bufs bufs.length 0 none (by omega)
    (fun j hj _ => absurd hj (Nat.not_lt_zero j))

/-- C1: when acquire(device, blockno) misses the cache and at least one
buffer in the pool has reference count zero, the buffer chosen for
recycling is a zero-reference buffer whose recency stamp is the
smallest among all zero-reference buffers at that moment; the first
zero-reference buffer encountered in the linear scan seeds the
comparison baseline and wins ties on equal stamps (every zero-reference
buffer earlier in the scan has a strictly larger stamp). -/
theorem bget_recycles_lru_first_min (s : Cache) (dev bno : Nat)
    (hmiss : findHit s.bufs (s.bucket (bno % NBUCKET)) dev bno = none)
    (hzero : ∃ j, j < s.bufs.length ∧ (getBuf s j).refcnt = 0) :
    ∃ i, bgetRes s dev bno = BRes.recycled i ∧ i < s.bufs.length ∧
      (getBuf s i).refcnt = 0 ∧
      (∀ j, j < s.bufs.length → (getBuf s j).refcnt = 0 →
        (getBuf s i).ticks ≤ (getBuf s j).ticks) ∧
      (∀ j, j < i → (getBuf s j).refcnt = 0 →
        (getBuf s i).ticks < (getBuf s j).ticks) := by
  have hspec := findLRU_spec s.bufs
  cases hfl : findLRU s.bufs with
  | none =>
      rw [hfl] at hspec
      obtain ⟨j, hj, hz⟩ := hzero
      exact absurd hz (hspec j hj hj)
  | some kt =>
      obtain ⟨k, t⟩ := kt
      rw [hfl] at hspec
      obtain ⟨_, hkl, hzk, htk, hmin, hfirst⟩ := hspec
      refine ⟨k, ?_, hkl, hzk, ?_, ?_⟩
      · simp [bgetRes, hmiss, hfl]
      · intro j hj hzj
        have := hmin j hj hj hzj
        rw [htk] at this
        exact this
      · intro j hj hzj
        have := hfirst j hj hzj
        rw [htk] at this
        exact this

/-- C1 witness: the LRU theorem applied to `lruCache` for the missing
key (2, 9). -/
theorem bget_recycles_lru_first_min_witness :
    findHit lruCache.bufs (lruCache.bucket (9 % NBUCKET)) 2 9 = none ∧
    (∃ j, j < lruCache.bufs.length ∧ (getBuf lruCache j).refcnt = 0) ∧
    (∃ i, bgetRes lruCache 2 9 = BRes.recycled i ∧ i < lruCache.bufs.length ∧
      (getBuf lruCache i).refcnt = 0 ∧
      (∀ j, j < lruCache.bufs.length → (getBuf lruCache j).refcnt = 0 →
        (getBuf lruCache i).ticks ≤ (getBuf lruCache j).ticks) ∧
      (∀ j, j < i → (getBuf lruCache j).refcnt = 0 →
        (getBuf lruCache i).ticks < (getBuf lruCache j).ticks)) :=
  ⟨rfl, ⟨1, by decide, by decide⟩,
    bget_recycles_lru_first_min lruCache 2 9 rfl ⟨1, by decide, by decide⟩⟩

theorem findHit_some (bufs : List Buf) (lst : List Nat) (dev bno j : Nat)
    (h : findHit bufs lst dev bno = some j) :
    j ∈ lst ∧ j < bufs.length ∧ (bufs.getD j default).dev = dev ∧
      (bufs.getD j default).blockno = bno := by
  induction lst with
  | nil => exact absurd h (by simp [findHit])
  | cons a rest ih =>
      simp only [findHit] at h
      by_cases hc : a < bufs.length ∧ (bufs.getD a default).dev = dev ∧
          (bufs.getD a default).blockno = bno
      · rw [if_pos hc] at h
        injection h with h2
        subst h2
        exact ⟨List.mem_cons_self _ _, hc⟩
      · rw [if_neg hc] at h
        obtain ⟨h1, h2⟩ := ih h
        exact ⟨List.mem_cons_of_mem a h1, h2⟩

theorem findHit_none (bufs : List Buf) (lst : List Nat) (dev bno j : Nat)
    (h : findHit bufs lst dev bno = none) (hj : j ∈ lst) (hjl : j < bufs.length)
    (hdev : (bufs.getD j default).dev = dev)
    (hbno : (bufs.getD j default).blockno = bno) : False := by
  induction lst with
  | nil => exact absurd hj (by simp)
  | cons a rest ih =>
      simp only [findHit] at h
      by_cases hc : a < bufs.length ∧ (bufs.getD a default).dev = dev ∧
          (bufs.getD a default).blockno = bno
      · rw [if_pos hc] at h
        exact Option.noConfusion h
      · rw [if_neg hc] at h
        rcases List.mem_cons.mp hj with hj1 | hj1
        · subst hj1
          exact hc ⟨hjl, hdev, hbno⟩
        · exact ih h hj1

/-- Case analysis of a successful bget: the returned slot is in range
and bound to the requested key; on a hit its count was incremented and
nothing else of it or of the buckets changed; on recycling it had a zero
count, was rebound with count 1 and invalid content, and was linked at
the head of the target bucket; all other slots are untouched. -/
theorem bgetApply_cases (s : Cache) (dev bno i : Nat) (s1 : Cache)
    (hget : bgetApply s dev bno = some (i, s1)) :
    i < s.bufs.length ∧ s1.bufs.length = s.bufs.length ∧
    (getBuf s1 i).dev = dev ∧ (getBuf s1 i).blockno = bno ∧
    (getBuf s1 i).lockHeld = true ∧ s1.curTicks = s.curTicks ∧
    ((bgetRes s dev bno = BRes.hit i ∧ i ∈ s.bucket (bno % NBUCKET) ∧
       (getBuf s1 i).refcnt = (getBuf s i).refcnt + 1 ∧
       (getBuf s1 i).valid = (getBuf s i).valid ∧
       (getBuf s1 i).ticks = (getBuf s i).ticks ∧
       s1.bucket = s.bucket) ∨
     (bgetRes s dev bno = BRes.recycled i ∧
       (getBuf s i).refcnt = 0 ∧
       (getBuf s1 i).refcnt = 1 ∧ (getBuf s1 i).valid = false ∧
       s1.bucket (bno % NBUCKET) = i :: s.bucket (bno % NBUCKET) ∧
       (∀ k, k ≠ bno % NBUCKET → s1.bucket k = s.bucket k))) ∧
    (∀ j, j ≠ i → getBuf s1 j = getBuf s j) := by
  cases hres : bgetRes s dev bno with
  | panic =>
      rw [bgetApply, hres] at hget
      exact absurd hget (by simp)
  | hit j =>
      rw [bgetApply, hres] at hget
      simp only [Option.some.injEq, Prod.mk.injEq] at hget
      obtain ⟨rfl, rfl⟩ := hget
      have hfh : findHit s.bufs (s.bucket (bno % NBUCKET)) dev bno = some j := by
        rw [bgetRes] at hres
        cases hfh2 : findHit s.bufs (s.bucket (bno % NBUCKET)) dev bno with
        | some j2 =>
            rw [hfh2] at hres
            simp only [BRes.hit.injEq] at hres
            rw [hres]
        | none =>
            rw [hfh2] at hres
            cases hfl : findLRU s.bufs with
            | some kt =>
                obtain ⟨k, t⟩ := kt
                rw [hfl] at hres
                exact absurd hres (by simp)
            | none =>
                rw [hfl] at hres
                exact absurd hres (by simp)
      obtain ⟨hmem, hjl, hdev, hbno⟩ := findHit_some _ _ _ _ _ hfh
      refine ⟨hjl, length_updL _ _ _, ?_, ?_, ?_, rfl, ?_, ?_⟩
      · simp only [getBuf, getD_updL_self _ _ _ hjl]
        exact hdev
      · simp only [getBuf, getD_updL_self _ _ _ hjl]
        exact hbno
      · simp only [getBuf, getD_updL_self _ _ _ hjl]
      · refine Or.inl ⟨rfl, hmem, ?_, ?_, ?_, rfl⟩ <;>
          simp only [getBuf, getD_updL_self _ _ _ hjl]
      · intro j2 hj2
        simp only [getBuf, getD_updL_ne _ _ _ _ hj2]
  | recycled j =>
      rw [bgetApply, hres] at hget
      simp only [Option.some.injEq, Prod.mk.injEq] at hget
      obtain ⟨rfl, rfl⟩ := hget
      have hlru : findLRU s.bufs = some (j, (s.bufs.getD j default).ticks) ∧
          j < s.bufs.length ∧ (s.bufs.getD j default).refcnt = 0 := by
        have hspec := findLRU_spec s.bufs
        rw [bgetRes] at hres
        cases hfh2 : findHit s.bufs (s.bucket (bno % NBUCKET)) dev bno with
        | some j2 =>
            rw [hfh2] at hres
            exact absurd hres (by simp)
        | none =>
            rw [hfh2] at hres
            cases hfl : findLRU s.bufs with
            | some kt =>
                obtain ⟨k, t⟩ := kt
                rw [hfl] at hres
                simp only [BRes.recycled.injEq] at hres
                subst hres
                rw [hfl] at hspec
                obtain ⟨_, hkl, hzk, htk, _, _⟩ := hspec
                exact ⟨by rw [htk], hkl, hzk⟩
            | none =>
                rw [hfl] at hres
                exact absurd hres (by simp)
      obtain ⟨hfl, hjl, hzj⟩ := hlru
      refine ⟨hjl, length_updL _ _ _, ?_, ?_, ?_, rfl, ?_, ?_⟩
      · simp only [getBuf, getD_updL_self _ _ _ hjl]
      · simp only [getBuf, getD_updL_self _ _ _ hjl]
      · simp only [getBuf, getD_updL_self _ _ _ hjl]
      · refine Or.inr ⟨rfl, hzj, ?_, ?_, by simp, fun k hk => by simp [hk]⟩ <;>
          simp only [getBuf, getD_updL_self _ _ _ hjl]
      · intro j2 hj2
        simp only [getBuf, getD_updL_ne _ _ _ _ hj2]

/-- C6: read(device, blockno) returns a buffer bound to that key with
valid content: when the buffer returned by acquire is not yet valid (in
particular any buffer freshly recycled to a new key, whose validity
acquire reset to false — the first conjunct), read invokes the disk
collaborator exactly once to fill it and then marks it valid; when the
buffer is already valid, no disk transfer occurs and the content is
returned as cached. -/
theorem bread_returns_valid_bound_buffer (disk : Nat → Nat → Nat) (s : Cache)
    (dev bno i : Nat) (s1 : Cache) (hget : bgetApply s dev bno = some (i, s1)) :
    (bgetRes s dev bno = BRes.recycled i → (getBuf s1 i).valid = false) ∧
    ∃ s2 r, bread disk s dev bno = some (i, s2, r) ∧
      (getBuf s2 i).dev = dev ∧ (getBuf s2 i).blockno = bno ∧
      (getBuf s2 i).valid = true ∧
      ((getBuf s1 i).valid = false → r = 1 ∧ (getBuf s2 i).data = disk dev bno) ∧
      ((getBuf s1 i).valid = true → r = 0 ∧ s2 = s1 ∧
        (getBuf s2 i).data = (getBuf s1 i).data) := by
  obtain ⟨hil, hlen, hdev, hbno, hlock, hticks, hcase, hframe⟩ :=
    bgetApply_cases s dev bno i s1 hget
  have hil1 : i < s1.bufs.length := by rw [hlen]; exact hil
  have hval : bgetRes s dev bno = BRes.recycled i → (getBuf s1 i).valid = false := by
    intro hres
    rcases hcase with ⟨hres2, _⟩ | ⟨_, _, _, hv, _⟩
    · rw [hres2] at hres
      exact absurd hres (by simp)
    · exact hv
  refine ⟨hval, ?_⟩
  cases hv : (getBuf s1 i).valid with
  | true =>
      refine ⟨s1, 0, ?_, hdev, hbno, hv, ?_, fun _ => ⟨rfl, rfl, rfl⟩⟩
      · simp only [bread, hget]
        rw [if_pos hv]
      · intro hvf
        exact absurd hvf (by simp)
  | false =>
      have hbr : bread disk s dev bno =
          some (i, { s1 with bufs := updL s1.bufs i (fun b =>
            { b with data := disk b.dev b.blockno, valid := true }) }, 1) := by
        simp only [bread, hget]
        rw [if_neg (by simp [hv])]
      refine ⟨_, 1, hbr, ?_, ?_, ?_, ?_, ?_⟩
      · simp only [getBuf, getD_updL_self _ _ _ hil1]
        exact hdev
      · simp only [getBuf, getD_updL_self _ _ _ hil1]
        exact hbno
      · simp only [getBuf, getD_updL_self _ _ _ hil1]
      · intro _
        refine ⟨rfl, ?_⟩
        simp only [getBuf, getD_updL_self _ _ _ hil1]
        show disk (getBuf s1 i).dev (getBuf s1 i).blockno = disk dev bno
        rw [hdev, hbno]
      · intro hvt
        exact absurd hvt (by simp)

/-- C6 witness: the read theorem applied to `wCache` for its cached key
(1, 5), with a constant disk. -/
theorem bread_returns_valid_bound_buffer_witness :
    ∃ s1, bgetApply wCache 1 5 = some (0, s1) ∧
      ((bgetRes wCache 1 5 = BRes.recycled 0 → (getBuf s1 0).valid = false) ∧
      ∃ s2 r, bread (fun _ _ => 42) wCache 1 5 = some (0, s2, r) ∧
        (getBuf s2 0).dev = 1 ∧ (getBuf s2 0).blockno = 5 ∧
        (getBuf s2 0).valid = true ∧
        ((getBuf s1 0).valid = false → r = 1 ∧ (getBuf s2 0).data = 42) ∧
        ((getBuf s1 0).valid = true → r = 0 ∧ s2 = s1 ∧
          (getBuf s2 0).data = (getBuf s1 0).data)) :=
  ⟨_, rfl, bread_returns_valid_bound_buffer (fun _ _ => 42) wCache 1 5 0 _ rfl⟩

theorem bgetApply_none_iff (s : Cache) (dev bno : Nat) :
    bgetApply s dev bno = none ↔ bgetRes s dev bno = BRes.panic := by
  cases hres : bgetRes s dev bno <;> simp [bgetApply, hres]

theorem getD_replicate (n i : Nat) :
    (List.replicate n (default : Buf)).getD i default = default := by
  induction n generalizing i with
  | zero => cases i <;> rfl
  | succ m ih =>
      cases i with
      | zero => rfl
      | succ j => simp only [List.replicate, List.getD_cons_succ, ih j]

/-- Boot state of the cache: all counts zero, nothing linked. -/
theorem cacheInv_init (n : Nat) : CacheInv (initCache n) := by
  have hd : ∀ i, getBuf (initCache n) i = default := by
    intro i
    simp [getBuf, initCache, getD_replicate]
  constructor
  · intro i _
    rw [hd i]
    decide
  · intro i _ hz
    rw [hd i] at hz
    exact absurd (by decide) hz

/-- Every documented-usage step preserves the cache invariant. -/
theorem cacheInv_step (s s2 : Cache) (hstep : CStep s s2) (hinv : CacheInv s) :
    CacheInv s2 := by
  obtain ⟨href, hbuck⟩ := hinv
  cases hstep with
  | tick => exact ⟨href, hbuck⟩
  | get dev bno i s2 hget =>
      obtain ⟨hil, hlen, hdev, hbno, hlock, hticks, hcase, hframe⟩ :=
        bgetApply_cases s dev bno i s2 hget
      constructor
      · intro j hjl
        rw [hlen] at hjl
        by_cases hji : j = i
        · subst hji
          rcases hcase with ⟨_, _, hrc, _⟩ | ⟨_, _, hrc, _⟩
          · rw [hrc]
            have := href j hjl
            omega
          · rw [hrc]
            decide
        · rw [hframe j hji]
          exact href j hjl
      · intro j hjl hjz
        rw [hlen] at hjl
        by_cases hji : j = i
        · subst hji
          rw [hbno]
          rcases hcase with ⟨_, hmem, _, _, _, hbk⟩ | ⟨_, _, _, _, hbk, _⟩
          · rw [hbk]
            exact hmem
          · rw [hbk]
            exact List.mem_cons_self _ _
        · rw [hframe j hji] at hjz ⊢
          have hold := hbuck j hjl hjz
          rcases hcase with ⟨_, _, _, _, _, hbk⟩ | ⟨_, _, _, _, hbk, hbk2⟩
          · rw [hbk]
            exact hold
          · by_cases hkey : (getBuf s j).blockno % NBUCKET = bno % NBUCKET
            · rw [hkey, hbk]
              exact List.mem_cons_of_mem _ (hkey ▸ hold)
            · rw [hbk2 _ hkey]
              exact hold
  | rel i s2 hr1 hrel =>
      unfold brelse at hrel
      by_cases hl : (getBuf s i).lockHeld
      · rw [if_pos hl] at hrel
        injection hrel with hrel
        subst hrel
        by_cases hz : (getBuf s i).refcnt - 1 = 0
        · constructor
          · intro j hjl
            simp only [brelseOk, if_pos hz, length_updL] at hjl ⊢
            by_cases hji : j = i
            · subst hji
              simp only [getBuf, getD_updL_self _ _ _ hjl]
              show (0 : Int) ≤ (s.bufs.getD j default).refcnt - 1
              have := hr1
              simp only [getBuf] at this
              omega
            · simp only [getBuf, getD_updL_ne _ _ _ _ hji]
              exact href j hjl
          · intro j hjl hjz
            simp only [brelseOk, if_pos hz, length_updL] at hjl hjz ⊢
            by_cases hji : j = i
            · subst hji
              simp only [getBuf, getD_updL_self _ _ _ hjl] at hjz
              exact absurd hz (by simpa [getBuf] using hjz)
            · simp only [getBuf, getD_updL_ne _ _ _ _ hji] at hjz ⊢
              have hold := hbuck j hjl (by simpa [getBuf] using hjz)
              simp only [getBuf] at hold
              by_cases hkey : (s.bufs.getD j default).blockno % NBUCKET =
                  (s.bufs.getD i default).blockno % NBUCKET
              · rw [hkey]
                rw [if_pos rfl]
                exact (List.mem_erase_of_ne hji).mpr (hkey ▸ hold)
              · rw [if_neg hkey]
                exact hold
        · constructor
          · intro j hjl
            simp only [brelseOk, if_neg hz, length_updL] at hjl ⊢
            by_cases hji : j = i
            · subst hji
              simp only [getBuf, getD_updL_self _ _ _ hjl]
              show (0 : Int) ≤ (s.bufs.getD j default).refcnt - 1
              have := hr1
              simp only [getBuf] at this
              omega
            · simp only [getBuf, getD_updL_ne _ _ _ _ hji]
              exact href j hjl
          · intro j hjl hjz
            simp only [brelseOk, if_neg hz, length_updL] at hjl hjz ⊢
            by_cases hji : j = i
            · subst hji
              simp only [getBuf, getD_updL_self _ _ _ hjl] at hjz ⊢
              have hold := hbuck j hjl (by
                intro h0
                simp only [getBuf] at h0
                have := hr1
                simp only [getBuf] at this
                omega)
              simpa [getBuf] using hold
            · simp only [getBuf, getD_updL_ne _ _ _ _ hji] at hjz ⊢
              exact hbuck j hjl (by simpa [getBuf] using hjz)
      · rw [if_neg hl] at hrel
        exact Option.noConfusion hrel
  | pin i hil hr1 =>
      constructor
      · intro j hjl
        simp only [bpin, length_updL] at hjl ⊢
        by_cases hji : j = i
        · subst hji
          simp only [getBuf, getD_updL_self _ _ _ hjl]
          have := href j hjl
          simp only [getBuf] at this
          show (0 : Int) ≤ (s.bufs.getD j default).refcnt + 1
          omega
        · simp only [getBuf, getD_updL_ne _ _ _ _ hji]
          exact href j hjl
      · intro j hjl hjz
        simp only [bpin, length_updL] at hjl hjz ⊢
        by_cases hji : j = i
        · subst hji
          simp only [getBuf, getD_updL_self _ _ _ hjl] at hjz ⊢
          have hold := hbuck j hjl (by
            have := hr1
            simp only [getBuf] at this ⊢
            omega)
          simpa [getBuf] using hold
        · simp only [getBuf, getD_updL_ne _ _ _ _ hji] at hjz ⊢
          exact hbuck j hjl (by simpa [getBuf] using hjz)
  | unpin i hil hr1 =>
      constructor
      · intro j hjl
        simp only [bunpin, length_updL] at hjl ⊢
        by_cases hji : j = i
        · subst hji
          simp only [getBuf, getD_updL_self _ _ _ hjl]
          have := hr1
          simp only [getBuf] at this
          show (0 : Int) ≤ (s.bufs.getD j default).refcnt - 1
          omega
        · simp only [getBuf, getD_updL_ne _ _ _ _ hji]
          exact href j hjl
      · intro j hjl hjz
        simp only [bunpin, length_updL] at hjl hjz ⊢
        by_cases hji : j = i
        · subst hji
          simp only [getBuf, getD_updL_self _ _ _ hjl] at hjz ⊢
          have hold := hbuck j hjl (by
            intro h0
            simp only [getBuf] at h0
            have := hr1
            simp only [getBuf] at this
            omega)
          simpa [getBuf] using hold
        · simp only [getBuf, getD_updL_ne _ _ _ _ hji] at hjz ⊢
          exact hbuck j hjl (by simpa [getBuf] using hjz)

/-- The cache invariant holds in every reachable state. -/
theorem cacheInv_reachable (n : Nat) (s : Cache) (hr : Reachable n s) : CacheInv s := by
  induction hr with
  | refl => exact cacheInv_init n
  | tail _ hstep ih => exact cacheInv_step _ _ hstep ih

/-- C2 (amended): in every state reachable under the documented usage,
every buffer holding a nonzero reference count is linked into the bucket
list with index equal to its block number mod 17 (the bucket count).
The original exactly-one-bucket claim fails for bound zero-reference
buffers: release dropping the count to zero unlinks the buffer from its
bucket, leaving a bound buffer linked into no bucket (see the
counterexample), while unpin dropping it to zero leaves it linked. -/
theorem referenced_buffer_linked_in_its_bucket (n : Nat) (s : Cache)
    (hr : Reachable n s) :
    ∀ i, i < s.bufs.length → (getBuf s i).refcnt ≠ 0 →
      i ∈ s.bucket ((getBuf s i).blockno % NBUCKET) :=
  (cacheInv_reachable n s hr).2

/-- C2 witness: the amended invariant applied after acquire(1, 5) on a
booted one-buffer cache: the referenced buffer is linked in bucket
5 mod 17. -/
theorem referenced_buffer_linked_in_its_bucket_witness :
    ∃ s1, bgetApply (initCache 1) 1 5 = some (0, s1) ∧
      0 ∈ s1.bucket ((getBuf s1 0).blockno % NBUCKET) :=
  ⟨_, rfl, referenced_buffer_linked_in_its_bucket 1 _
      (Relation.ReflTransGen.single (CStep.get (initCache 1) 1 5 0 _ rfl))
      0 (by decide) (by decide)⟩

/-- C2 counterexample: the operation sequence acquire(1, 5); release
leaves pool slot 0 bound to key (1, 5) yet linked into no bucket at
all, so a bound buffer does not always belong to exactly one hash
bucket. -/
theorem bound_buffer_in_no_bucket_counterexample :
    ∃ s1 s2, bgetApply (initCache 1) 1 5 = some (0, s1) ∧
      brelse s1 0 = some s2 ∧
      (getBuf s2 0).dev = 1 ∧ (getBuf s2 0).blockno = 5 ∧
      ∀ k, k < NBUCKET → ¬ 0 ∈ s2.bucket k := by
  refine ⟨_, _, rfl, rfl, ?_, ?_, ?_⟩ <;> decide

/-- C8: acquire(device, blockno) halts the kernel exactly when the key
is not bound to any pool buffer and every buffer has a nonzero
reference count; whenever some buffer has reference count zero, acquire
never halts and returns a buffer bound to the requested key, with its
reference count incremented on a hit and set to one on recycling. -/
theorem bget_panic_iff_unbound_and_all_referenced (n : Nat) (s : Cache)
    (dev bno : Nat) (hr : Reachable n s) :
    (bgetRes s dev bno = BRes.panic ↔
      ((¬ ∃ j, j < s.bufs.length ∧ (getBuf s j).dev = dev ∧
          (getBuf s j).blockno = bno) ∧
        ∀ j, j < s.bufs.length → (getBuf s j).refcnt ≠ 0)) ∧
    ((∃ j, j < s.bufs.length ∧ (getBuf s j).refcnt = 0) →
      ∃ i s2, bgetApply s dev bno = some (i, s2) ∧
        (getBuf s2 i).dev = dev ∧ (getBuf s2 i).blockno = bno ∧
        (bgetRes s dev bno = BRes.hit i →
          (getBuf s2 i).refcnt = (getBuf s i).refcnt + 1) ∧
        (bgetRes s dev bno = BRes.recycled i → (getBuf s2 i).refcnt = 1)) := by
  obtain ⟨href, hbuck⟩ := cacheInv_reachable n s hr
  constructor
  · constructor
    · intro hp
      rw [bgetRes] at hp
      cases hfh : findHit s.bufs (s.bucket (bno % NBUCKET)) dev bno with
      | some j =>
          rw [hfh] at hp
          exact absurd hp (by simp)
      | none =>
          rw [hfh] at hp
          cases hfl : findLRU s.bufs with
          | some kt =>
              obtain ⟨k, t⟩ := kt
              rw [hfl] at hp
              exact absurd hp (by simp)
          | none =>
              have hall : ∀ j, j < s.bufs.length → (getBuf s j).refcnt ≠ 0 := by
                have hspec := findLRU_spec s.bufs
                rw [hfl] at hspec
                intro j hjl
                exact hspec j hjl hjl
              refine ⟨?_, hall⟩
              rintro ⟨j, hjl, hdev, hbno⟩
              have hmem := hbuck j hjl (hall j hjl)
              rw [hbno] at hmem
              exact findHit_none s.bufs _ dev bno j hfh hmem hjl hdev hbno
    · rintro ⟨hnb, hall⟩
      rw [bgetRes]
      cases hfh : findHit s.bufs (s.bucket (bno % NBUCKET)) dev bno with
      | some j =>
          obtain ⟨_, hjl, hdev, hbno⟩ := findHit_some _ _ _ _ _ hfh
          exact absurd ⟨j, hjl, hdev, hbno⟩ hnb
      | none =>
          cases hfl : findLRU s.bufs with
          | some kt =>
              obtain ⟨k, t⟩ := kt
              have hspec := findLRU_spec s.bufs
              rw [hfl] at hspec
              exact absurd hspec.2.2.1 (hall k hspec.2.1)
          | none => rfl
  · rintro ⟨j, hjl, hjz⟩
    cases hga : bgetApply s dev bno with
    | none =>
        rw [bgetApply_none_iff, bgetRes] at hga
        cases hfh : findHit s.bufs (s.bucket (bno % NBUCKET)) dev bno with
        | some j2 =>
            rw [hfh] at hga
            exact absurd hga (by simp)
        | none =>
            rw [hfh] at hga
            cases hfl : findLRU s.bufs with
            | some kt =>
                obtain ⟨k, t⟩ := kt
                rw [hfl] at hga
                exact absurd hga (by simp)
            | none =>
                have hspec := findLRU_spec s.bufs
                rw [hfl] at hspec
                exact absurd hjz (hspec j hjl hjl)
    | some p =>
        obtain ⟨i, s2⟩ := p
        obtain ⟨hil, hlen, hdev, hbno, hlock, hticks, hcase, hframe⟩ :=
          bgetApply_cases s dev bno i s2 hga
        refine ⟨i, s2, rfl, hdev, hbno, ?_, ?_⟩
        · intro hres
          rcases hcase with ⟨_, _, hrc, _⟩ | ⟨hres2, _⟩
          · exact hrc
          · rw [hres] at hres2
            exact absurd hres2 (by simp)
        · intro hres
          rcases hcase with ⟨hres2, _⟩ | ⟨_, _, hrc, _⟩
          · rw [hres] at hres2
            exact absurd hres2 (by simp)
          · exact hrc

/-- C8 witness: the theorem applied to a booted one-buffer cache for
key (0, 0): the cache has a zero-reference buffer, so acquire does not
panic and the panic characterisation holds. -/
theorem bget_panic_iff_witness :
    (bgetRes (initCache 1) 0 0 = BRes.panic ↔
      ((¬ ∃ j, j < (initCache 1).bufs.length ∧ (getBuf (initCache 1) j).dev = 0 ∧
          (getBuf (initCache 1) j).blockno = 0) ∧
        ∀ j, j < (initCache 1).bufs.length → (getBuf (initCache 1) j).refcnt ≠ 0)) ∧
    ((∃ j, j < (initCache 1).bufs.length ∧ (getBuf (initCache 1) j).refcnt = 0) →
      ∃ i s2, bgetApply (initCache 1) 0 0 = some (i, s2) ∧
        (getBuf s2 i).dev = 0 ∧ (getBuf s2 i).blockno = 0 ∧
        (bgetRes (initCache 1) 0 0 = BRes.hit i →
          (getBuf s2 i).refcnt = (getBuf (initCache 1) i).refcnt + 1) ∧
        (bgetRes (initCache 1) 0 0 = BRes.recycled i → (getBuf s2 i).refcnt = 1)) :=
  bget_panic_iff_unbound_and_all_referenced 1 (initCache 1) 0 0
    Relation.ReflTransGen.refl

/-- C9: write(buffer) and release(buffer) halt the kernel if and only if
the caller does not hold the buffer's exclusive lock; when the lock is
held, write flushes the buffer's content to disk via the collaborator
with the write flag set and does not release the lock, change the
validity flag, or modify any other buffer field (the cache state is
returned unchanged). -/
theorem bwrite_brelse_lock_discipline (s : Cache) (i : Nat) :
    (bwrite s i = none ↔ (getBuf s i).lockHeld = false) ∧
    (brelse s i = none ↔ (getBuf s i).lockHeld = false) ∧
    (∀ op s2, bwrite s i = some (op, s2) →
      s2 = s ∧ op.isWrite = true ∧ op.dev = (getBuf s i).dev ∧
      op.blockno = (getBuf s i).blockno ∧ op.data = (getBuf s i).data) := by
  cases hheld : (getBuf s i).lockHeld with
  | false =>
      refine ⟨by simp [bwrite, hheld], by simp [brelse, hheld], ?_⟩
      intro op s2 h
      rw [bwrite, if_neg (by simp [hheld])] at h
      exact absurd h (by simp)
  | true =>
      refine ⟨by simp [bwrite, hheld], ?_, ?_⟩
      · unfold brelse
        rw [if_pos hheld]
        simp
      · intro op s2 h
        rw [bwrite, if_pos hheld] at h
        obtain ⟨h1, h2⟩ := by simpa using h
        subst h2
        simp [← h1]

/-- C10: pin(buffer) and unpin(buffer) change only the buffer's
reference count (by +1 and -1); its device, block number, validity,
recency stamp, data, lock and the bucket lists are unchanged — in
particular, when unpin brings the count to zero the buffer is not
unlinked and its stamp is not updated (the bucket map and ticks of every
buffer are untouched), unlike release. -/
theorem bpin_bunpin_only_refcnt (s : Cache) (i : Nat) (hi : i < s.bufs.length) :
    (bpin s i).bucket = s.bucket ∧ (bunpin s i).bucket = s.bucket ∧
    (bpin s i).curTicks = s.curTicks ∧ (bunpin s i).curTicks = s.curTicks ∧
    (getBuf (bpin s i) i).refcnt = (getBuf s i).refcnt + 1 ∧
    (getBuf (bunpin s i) i).refcnt = (getBuf s i).refcnt - 1 ∧
    (getBuf (bpin s i) i).dev = (getBuf s i).dev ∧
    (getBuf (bpin s i) i).blockno = (getBuf s i).blockno ∧
    (getBuf (bpin s i) i).valid = (getBuf s i).valid ∧
    (getBuf (bpin s i) i).ticks = (getBuf s i).ticks ∧
    (getBuf (bpin s i) i).data = (getBuf s i).data ∧
    (getBuf (bpin s i) i).lockHeld = (getBuf s i).lockHeld ∧
    (getBuf (bunpin s i) i).dev = (getBuf s i).dev ∧
    (getBuf (bunpin s i) i).blockno = (getBuf s i).blockno ∧
    (getBuf (bunpin s i) i).valid = (getBuf s i).valid ∧
    (getBuf (bunpin s i) i).ticks = (getBuf s i).ticks ∧
    (getBuf (bunpin s i) i).data = (getBuf s i).data ∧
    (getBuf (bunpin s i) i).lockHeld = (getBuf s i).lockHeld ∧
    (∀ j, j ≠ i → getBuf (bpin s i) j = getBuf s j ∧ getBuf (bunpin s i) j = getBuf s j) := by
  refine ⟨rfl, rfl, rfl, rfl, ?_⟩
  simp only [bpin, bunpin, getBuf, getD_updL_self _ _ _ hi]
  simp only [true_and, and_true]
  intro j hj
  constructor
  · simp only [getD_updL_ne _ _ _ _ hj]
  · simp only [getD_updL_ne _ _ _ _ hj]

/-- C10 witness: the pin/unpin frame theorem applied to `wCache` at
slot 0. -/
theorem bpin_bunpin_only_refcnt_witness :
    0 < wCache.bufs.length ∧
    ((bpin wCache 0).bucket = wCache.bucket ∧ (bunpin wCache 0).bucket = wCache.bucket ∧
    (bpin wCache 0).curTicks = wCache.curTicks ∧ (bunpin wCache 0).curTicks = wCache.curTicks ∧
    (getBuf (bpin wCache 0) 0).refcnt = (getBuf wCache 0).refcnt + 1 ∧
    (getBuf (bunpin wCache 0) 0).refcnt = (getBuf wCache 0).refcnt - 1 ∧
    (getBuf (bpin wCache 0) 0).dev = (getBuf wCache 0).dev ∧
    (getBuf (bpin wCache 0) 0).blockno = (getBuf wCache 0).blockno ∧
    (getBuf (bpin wCache 0) 0).valid = (getBuf wCache 0).valid ∧
    (getBuf (bpin wCache 0) 0).ticks = (getBuf wCache 0).ticks ∧
    (getBuf (bpin wCache 0) 0).data = (getBuf wCache 0).data ∧
    (getBuf (bpin wCache 0) 0).lockHeld = (getBuf wCache 0).lockHeld ∧
    (getBuf (bunpin wCache 0) 0).dev = (getBuf wCache 0).dev ∧
    (getBuf (bunpin wCache 0) 0).blockno = (getBuf wCache 0).blockno ∧
    (getBuf (bunpin wCache 0) 0).valid = (getBuf wCache 0).valid ∧
    (getBuf (bunpin wCache 0) 0).ticks = (getBuf wCache 0).ticks ∧
    (getBuf (bunpin wCache 0) 0).data = (getBuf wCache 0).data ∧
    (getBuf (bunpin wCache 0) 0).lockHeld = (getBuf wCache 0).lockHeld ∧
    (∀ j, j ≠ 0 → getBuf (bpin wCache 0) j = getBuf wCache j ∧
      getBuf (bunpin wCache 0) j = getBuf wCache j)) :=
  ⟨by decide, bpin_bunpin_only_refcnt wCache 0 (by decide)⟩

theorem getref_addref_self (s : KState) (pa : Nat) :
    getref (addref s pa) pa = getref s pa + 1 := by
  simp [addref, getref]

theorem getref_addref_ne (s : KState) (pa q : Nat) (h : q / PGSIZE ≠ pa / PGSIZE) :
    getref (addref s pa) q = getref s q := by
  simp [addref, getref, h]

theorem subref_shape (s : KState) (pa : Nat) :
    getref (subref s pa) pa =
      (if 0 < getref s pa then getref s pa - 1 else getref s pa) ∧
    (subref s pa).freelist = s.freelist ∧ (subref s pa).mem = s.mem := by
  by_cases h : 0 < getref s pa
  · rw [if_pos h]
    unfold subref
    rw [if_pos h]
    exact ⟨by simp [getref], rfl, rfl⟩
  · rw [if_neg h]
    unfold subref
    rw [if_neg h]
    exact ⟨rfl, rfl, rfl⟩

theorem getref_subref_ne (s : KState) (pa q : Nat) (h : q / PGSIZE ≠ pa / PGSIZE) :
    getref (subref s pa) q = getref s q := by
  unfold subref
  by_cases hp : 0 < getref s pa
  · rw [if_pos hp]
    simp [getref, h]
  · rw [if_neg hp]

theorem validPA_div_ne (cfg : KConfig) (p q : Nat) (hp : ValidPA cfg p)
    (hq : ValidPA cfg q) (hne : q ≠ p) : q / PGSIZE ≠ p / PGSIZE := by
  unfold ValidPA PGSIZE at *
  omega

theorem kfree_eq_none_iff (cfg : KConfig) (s : KState) (pa : Nat) :
    kfree cfg s pa = none ↔ ¬ ValidPA cfg pa := by
  by_cases hv : ValidPA cfg pa
  · rw [kfree, if_neg (not_not_intro hv)]
    by_cases h0 : getref (subref s pa) pa = 0
    · rw [if_pos h0]
      simp [hv]
    · rw [if_neg h0]
      simp [hv]
  · rw [kfree, if_pos hv]
    simp [hv]

theorem kfree_some_zero (cfg : KConfig) (s : KState) (pa : Nat)
    (hv : ValidPA cfg pa) (h0 : getref (subref s pa) pa = 0) :
    kfree cfg s pa = some { kmemset (subref s pa) pa 1 with
      freelist := pa :: (kmemset (subref s pa) pa 1).freelist } := by
  rw [kfree, if_neg (not_not_intro hv), if_pos h0]

theorem kfree_some_pos (cfg : KConfig) (s : KState) (pa : Nat)
    (hv : ValidPA cfg pa) (h0 : getref (subref s pa) pa ≠ 0) :
    kfree cfg s pa = some (subref s pa) := by
  rw [kfree, if_neg (not_not_intro hv), if_neg h0]

theorem mem_pageList (cfg : KConfig) (pa : Nat) :
    pa ∈ pageList cfg ↔ ∃ k, k < (cfg.physTop - PGROUNDUP cfg.endA) / PGSIZE ∧
      pa = PGROUNDUP cfg.endA + PGSIZE * k := by
  simp only [pageList, List.mem_map, List.mem_range]
  constructor
  · rintro ⟨k, hk, rfl⟩
    exact ⟨k, hk, rfl⟩
  · rintro ⟨k, hk, rfl⟩
    exact ⟨k, hk, rfl⟩

theorem pageList_valid (cfg : KConfig) : ∀ p ∈ pageList cfg, ValidPA cfg p := by
  intro p hp
  rw [mem_pageList] at hp
  obtain ⟨k, hk, rfl⟩ := hp
  unfold ValidPA PGROUNDUP PGSIZE at *
  refine ⟨?_, ?_, ?_⟩ <;> omega

theorem validPA_iff_mem_pageList (cfg : KConfig) (hcfg : CfgOk cfg) (pa : Nat) :
    ValidPA cfg pa ↔ pa ∈ pageList cfg := by
  rw [mem_pageList]
  unfold ValidPA CfgOk PGROUNDUP PGSIZE at *
  constructor
  · rintro ⟨hal, hlo, hhi⟩
    refine ⟨(pa - ((cfg.endA + 4096 - 1) / 4096) * 4096) / 4096, ?_, ?_⟩ <;> omega
  · rintro ⟨k, hk, rfl⟩
    refine ⟨?_, ?_, ?_⟩ <;> omega

theorem pageList_nodup (cfg : KConfig) : (pageList cfg).Nodup := by
  refine List.Nodup.map ?_ (List.nodup_range _)
  intro a b hab
  simp only [PGSIZE] at hab
  omega

theorem freerange_fold (cfg : KConfig) (l : List Nat) :
    ∀ (s : KState), (∀ p ∈ l, ValidPA cfg p) → (∀ j, s.ref j = 0) →
      ((l.foldl (fun t p => (kfree cfg t p).getD t) s).freelist
          = l.reverse ++ s.freelist) ∧
      (∀ j, (l.foldl (fun t p => (kfree cfg t p).getD t) s).ref j = 0) := by
  induction l with
  | nil =>
      intro s _ h0
      exact ⟨by simp, h0⟩
  | cons p rest ih =>
      intro s hv h0
      have hvp : ValidPA cfg p := hv p (List.mem_cons_self _ _)
      have h0p : getref s p = 0 := h0 _
      have hfr : subref s p = s := by
        unfold subref
        rw [if_neg (by rw [h0p]; exact lt_irrefl 0)]
      have h00 : getref (subref s p) p = 0 := by
        rw [hfr]
        exact h0p
      have hstep : (kfree cfg s p).getD s =
          { kmemset (subref s p) p 1 with
            freelist := p :: (kmemset (subref s p) p 1).freelist } := by
        rw [kfree_some_zero cfg s p hvp h00]
        rfl
      rw [List.foldl_cons, hstep]
      obtain ⟨h1, h2⟩ := ih
        { kmemset (subref s p) p 1 with
          freelist := p :: (kmemset (subref s p) p 1).freelist }
        (fun q hq => hv q (List.mem_cons_of_mem _ hq))
        (fun j => by
          show (kmemset (subref s p) p 1).ref j = 0
          show (subref s p).ref j = 0
          rw [hfr]
          exact h0 j)
      refine ⟨?_, h2⟩
      rw [h1]
      show rest.reverse ++ (p :: (subref s p).freelist) = (p :: rest).reverse ++ s.freelist
      rw [hfr]
      simp

theorem kinitState_spec (cfg : KConfig) (mem0 : Nat → Nat → Nat) :
    (kinitState cfg mem0).freelist = (pageList cfg).reverse ∧
    ∀ j, (kinitState cfg mem0).ref j = 0 := by
  obtain ⟨h1, h2⟩ := freerange_fold cfg (pageList cfg)
    { freelist := [], ref := fun _ => 0, mem := mem0 }
    (pageList_valid cfg) (fun _ => rfl)
  refine ⟨?_, ?_⟩
  · show ((pageList cfg).foldl (fun t p => (kfree cfg t p).getD t)
        { freelist := [], ref := fun _ => 0, mem := mem0 }).freelist = _
    rw [h1]
    simp
  · exact h2

theorem kInv_init (cfg : KConfig) (mem0 : Nat → Nat → Nat) (hcfg : CfgOk cfg) :
    KInv cfg (kinitState cfg mem0) := by
  obtain ⟨hfl, hr0⟩ := kinitState_spec cfg mem0
  refine ⟨?_, ?_, ?_, ?_⟩
  · intro j
    rw [hr0 j]
  · rw [hfl]
    exact List.nodup_reverse.mpr (pageList_nodup cfg)
  · intro q hq
    rw [hfl] at hq
    exact pageList_valid cfg q (List.mem_reverse.mp hq)
  · intro pa hv
    rw [hfl, List.mem_reverse, ← validPA_iff_mem_pageList cfg hcfg]
    have : getref (kinitState cfg mem0) pa = 0 := hr0 _
    rw [this]
    simp [hv]

theorem kInv_step (cfg : KConfig) (s s2 : KState) (hstep : KStep cfg s s2)
    (hinv : KInv cfg s) : KInv cfg s2 := by
  obtain ⟨hr0, hnd, hvl, hiff⟩ := hinv
  cases hstep with
  | alloc =>
      cases hfl : s.freelist with
      | nil =>
          have heq : (kalloc s).2 = s := by
            simp only [kalloc, hfl]
          rw [heq]
          exact ⟨hr0, hnd, hvl, hiff⟩
      | cons p rest =>
          have heq : (kalloc s).2 = kmemset { addref s p with freelist := rest } p 5 := by
            simp only [kalloc, hfl]
          rw [heq]
          have hpv : ValidPA cfg p := hvl p (by rw [hfl]; exact List.mem_cons_self _ _)
          have hp0 : getref s p = 0 :=
            (hiff p hpv).mp (by rw [hfl]; exact List.mem_cons_self _ _)
          have hndc := List.nodup_cons.mp (by rw [hfl] at hnd; exact hnd)
          refine ⟨?_, hndc.2, ?_, ?_⟩
          · intro j
            show (0 : Int) ≤ (addref s p).ref j
            unfold addref
            by_cases hj : j = p / PGSIZE
            · simp only [hj, if_pos rfl]
              have := hr0 (p / PGSIZE)
              omega
            · simp only [if_neg hj]
              exact hr0 j
          · intro q hq
            exact hvl q (by rw [hfl]; exact List.mem_cons_of_mem _ hq)
          · intro q hqv
            show q ∈ rest ↔ getref (addref s p) q = 0
            by_cases hqp : q = p
            · subst hqp
              rw [getref_addref_self, hp0]
              constructor
              · intro hin
                exact absurd hin hndc.1
              · intro h1
                exact absurd h1 (by norm_num)
            · rw [getref_addref_ne s p q (validPA_div_ne cfg p q hpv hqv hqp)]
              have hold := hiff q hqv
              rw [hfl] at hold
              constructor
              · intro hin
                exact hold.mp (List.mem_cons_of_mem _ hin)
              · intro h0
                rcases List.mem_cons.mp (hold.mpr h0) with h | h
                · exact absurd h hqp
                · exact h
  | freeStep pa s3 hr1 heq =>
      have hv : ValidPA cfg pa := by
        by_contra hnv
        rw [(kfree_eq_none_iff cfg s pa).mpr hnv] at heq
        exact Option.noConfusion heq
      have hpos : 0 < getref s pa := by omega
      obtain ⟨hsr, hsf, hsm⟩ := subref_shape s pa
      rw [if_pos hpos] at hsr
      have hnotin : pa ∉ s.freelist := by
        intro hin
        have := (hiff pa hv).mp hin
        omega
      have hrefsub : ∀ j, (subref s pa).ref j =
          (if j = pa / PGSIZE then s.ref j - 1 else s.ref j) := by
        intro j
        unfold subref
        rw [if_pos hpos]
      by_cases h0 : getref (subref s pa) pa = 0
      · rw [kfree_some_zero cfg s pa hv h0] at heq
        injection heq with heq
        subst heq
        refine ⟨?_, ?_, ?_, ?_⟩
        · intro j
          show (0 : Int) ≤ (subref s pa).ref j
          rw [hrefsub j]
          by_cases hj : j = pa / PGSIZE
          · rw [if_pos hj]
            have h1 : (1 : Int) ≤ s.ref (pa / PGSIZE) := hr1
            rw [hj]
            omega
          · rw [if_neg hj]
            exact hr0 j
        · show (pa :: (subref s pa).freelist).Nodup
          rw [hsf]
          exact List.nodup_cons.mpr ⟨hnotin, hnd⟩
        · intro q hq
          have hq2 : q ∈ pa :: (subref s pa).freelist := hq
          rw [hsf] at hq2
          rcases List.mem_cons.mp hq2 with h | h
          · rw [h]
            exact hv
          · exact hvl q h
        · intro q hqv
          show q ∈ pa :: (subref s pa).freelist ↔ getref (subref s pa) q = 0
          rw [hsf]
          by_cases hqp : q = pa
          · subst hqp
            rw [h0]
            simp
          · rw [getref_subref_ne s pa q (validPA_div_ne cfg pa q hv hqv hqp)]
            rw [List.mem_cons]
            have hold := hiff q hqv
            constructor
            · intro hin
              rcases hin with h | h
              · exact absurd h hqp
              · exact hold.mp h
            · intro hz
              exact Or.inr (hold.mpr hz)
      · rw [kfree_some_pos cfg s pa hv h0] at heq
        injection heq with heq
        subst heq
        refine ⟨?_, ?_, ?_, ?_⟩
        · intro j
          rw [hrefsub j]
          by_cases hj : j = pa / PGSIZE
          · rw [if_pos hj]
            have h1 : (1 : Int) ≤ s.ref (pa / PGSIZE) := hr1
            rw [hj]
            omega
          · rw [if_neg hj]
            exact hr0 j
        · rw [hsf]
          exact hnd
        · intro q hq
          rw [hsf] at hq
          exact hvl q hq
        · intro q hqv
          rw [hsf]
          by_cases hqp : q = pa
          · subst hqp
            constructor
            · intro hin
              exact absurd hin hnotin
            · intro hz
              exact absurd hz h0
          · rw [getref_subref_ne s pa q (validPA_div_ne cfg pa q hv hqv hqp)]
            exact hiff q hqv
  | addrefStep pa hv hr1 =>
      have hnotin : pa ∉ s.freelist := by
        intro hin
        have := (hiff pa hv).mp hin
        omega
      refine ⟨?_, hnd, hvl, ?_⟩
      · intro j
        show (0 : Int) ≤ (addref s pa).ref j
        unfold addref
        by_cases hj : j = pa / PGSIZE
        · simp only [hj, if_pos rfl]
          have := hr0 (pa / PGSIZE)
          omega
        · simp only [if_neg hj]
          exact hr0 j
      · intro q hqv
        show q ∈ s.freelist ↔ getref (addref s pa) q = 0
        by_cases hqp : q = pa
        · subst hqp
          rw [getref_addref_self]
          constructor
          · intro hin
            exact absurd hin hnotin
          · intro h1
            exfalso
            omega
        · rw [getref_addref_ne s pa q (validPA_div_ne cfg pa q hv hqv hqp)]
          exact hiff q hqv
  | subrefStep pa hv hr2 =>
      have hpos : 0 < getref s pa := by omega
      have hnotin : pa ∉ s.freelist := by
        intro hin
        have := (hiff pa hv).mp hin
        omega
      obtain ⟨hsr, hsf, hsm⟩ := subref_shape s pa
      rw [if_pos hpos] at hsr
      have hrefsub : ∀ j, (subref s pa).ref j =
          (if j = pa / PGSIZE then s.ref j - 1 else s.ref j) := by
        intro j
        unfold subref
        rw [if_pos hpos]
      refine ⟨?_, ?_, ?_, ?_⟩
      · intro j
        rw [hrefsub j]
        by_cases hj : j = pa / PGSIZE
        · rw [if_pos hj]
          have h1 : (1 : Int) ≤ s.ref (pa / PGSIZE) := by
            have := hr2
            unfold getref at this
            omega
          rw [hj]
          omega
        · rw [if_neg hj]
          exact hr0 j
      · rw [hsf]
        exact hnd
      · intro q hq
        rw [hsf] at hq
        exact hvl q hq
      · intro q hqv
        rw [hsf]
        by_cases hqp : q = pa
        · subst hqp
          rw [hsr]
          constructor
          · intro hin
            exact absurd hin hnotin
          · intro hz
            exfalso
            omega
        · rw [getref_subref_ne s pa q (validPA_div_ne cfg pa q hv hqv hqp)]
          exact hiff q hqv

theorem kInv_reachable (cfg : KConfig) (s : KState) (hcfg : CfgOk cfg)
    (hr : ReachableK cfg s) : KInv cfg s := by
  obtain ⟨mem0, hr⟩ := hr
  induction hr with
  | refl => exact kInv_init cfg mem0 hcfg
  | tail _ hstep ih => exact kInv_step cfg _ _ hstep ih

/-- C4 (amended): free(page address) halts the kernel exactly when the
address is not page-aligned or lies outside the managed range; on a
valid address it decrements the page's reference count when the count
is positive and leaves the count unchanged otherwise; exactly when the
resulting count is zero it overwrites every byte of the page with the
fill byte 1 and pushes the page onto the head of the free list; when
the resulting count is nonzero the free list and memory are
unchanged. -/
theorem kfree_spec (cfg : KConfig) (s : KState) (pa : Nat) :
    (kfree cfg s pa = none ↔
      (pa % PGSIZE ≠ 0 ∨ pa < cfg.endA ∨ cfg.physTop ≤ pa)) ∧
    ∀ s2, kfree cfg s pa = some s2 →
      getref s2 pa = (if 0 < getref s pa then getref s pa - 1 else getref s pa) ∧
      (getref s2 pa = 0 → s2.freelist = pa :: s.freelist ∧
        ∀ off, s2.mem pa off = 1) ∧
      (getref s2 pa ≠ 0 → s2.freelist = s.freelist ∧ s2.mem = s.mem) := by
  have hnv : ¬ ValidPA cfg pa ↔
      (pa % PGSIZE ≠ 0 ∨ pa < cfg.endA ∨ cfg.physTop ≤ pa) := by
    unfold ValidPA
    omega
  obtain ⟨hsr, hsf, hsm⟩ := subref_shape s pa
  constructor
  · rw [kfree_eq_none_iff]
    exact hnv
  · intro s2 hs2
    by_cases hv : ValidPA cfg pa
    · by_cases h0 : getref (subref s pa) pa = 0
      · rw [kfree_some_zero cfg s pa hv h0] at hs2
        injection hs2 with hs2
        subst hs2
        have hg2 : getref { kmemset (subref s pa) pa 1 with
            freelist := pa :: (kmemset (subref s pa) pa 1).freelist } pa
            = getref (subref s pa) pa := rfl
        refine ⟨?_, ?_, ?_⟩
        · rw [hg2, ← hsr]
        · intro _
          constructor
          · show pa :: (subref s pa).freelist = pa :: s.freelist
            rw [hsf]
          · intro off
            show (kmemset (subref s pa) pa 1).mem pa off = 1
            simp [kmemset]
        · intro hne
          rw [hg2] at hne
          exact absurd h0 hne
      · rw [kfree_some_pos cfg s pa hv h0] at hs2
        injection hs2 with hs2
        subst hs2
        refine ⟨hsr, ?_, ?_⟩
        · intro hz
          exact absurd hz h0
        · intro _
          exact ⟨hsf, hsm⟩
    · rw [(kfree_eq_none_iff cfg s pa).mpr hv] at hs2
      exact Option.noConfusion hs2

/-- C4 counterexample: freeing the already-free page 4096 right after
kinit passes the address check, but the reference count is 0 and stays
0 — it is not decremented — while the claim as stated requires the
count to drop by one on every valid free; the page is also pushed onto
the free list a second time. -/
theorem kfree_does_not_decrement_at_zero :
    ∃ s2, kfree cexCfg cexInit 4096 = some s2 ∧
      getref cexInit 4096 = 0 ∧ getref s2 4096 = 0 ∧
      ¬ getref s2 4096 = getref cexInit 4096 - 1 ∧
      s2.freelist = 4096 :: cexInit.freelist := by
  refine ⟨_, rfl, ?_, ?_, ?_, ?_⟩ <;> decide

/-- C5 (amended): getref is ≥ 0 in every reachable state, and — for
operation sequences that respect the documented preconditions (free and
add_reference applied to pages currently holding a reference,
remove_reference to pages holding at least two) — a page of the managed
range is on the free list if and only if its reference count is zero.
Unrestricted sequences violate the iff (see the counterexample). -/
theorem allocator_freelist_iff_refcount_zero (cfg : KConfig) (s : KState)
    (hcfg : CfgOk cfg) (hr : ReachableK cfg s) :
    (∀ pa, 0 ≤ getref s pa) ∧
    (∀ pa, ValidPA cfg pa → (pa ∈ s.freelist ↔ getref s pa = 0)) := by
  obtain ⟨hr0, _, _, hiff⟩ := kInv_reachable cfg s hcfg hr
  exact ⟨fun pa => hr0 (pa / PGSIZE), hiff⟩

/-- C5 witness: the invariant theorem applied to the kinit state of the
two-page configuration. -/
theorem allocator_freelist_iff_refcount_zero_witness :
    CfgOk cexCfg ∧
    ((∀ pa, 0 ≤ getref cexInit pa) ∧
     (∀ pa, ValidPA cexCfg pa → (pa ∈ cexInit.freelist ↔ getref cexInit pa = 0))) :=
  ⟨rfl, allocator_freelist_iff_refcount_zero cexCfg cexInit rfl
    ⟨fun _ _ => 0, Relation.ReflTransGen.refl⟩⟩

/-- C5 counterexample: three operation sequences each of which breaks
the claimed invariant when the operations are unrestricted.
(a) init; add_reference(4096): the page sits on the free list with
count 1. (b) init; allocate; remove_reference: the allocated page's
count returns to 0 yet the page is not on the free list. (c) init;
free(4096) (a double free); allocate: the page is returned with count 1
while its duplicate free-list entry remains. -/
theorem allocator_freelist_iff_counterexample :
    (4096 ∈ (addref cexInit 4096).freelist ∧
      getref (addref cexInit 4096) 4096 = 1) ∧
    ((kalloc cexInit).1 = some 8192 ∧
      ¬ 8192 ∈ (subref (kalloc cexInit).2 8192).freelist ∧
      getref (subref (kalloc cexInit).2 8192) 8192 = 0) ∧
    (∃ s3, kfree cexCfg cexInit 4096 = some s3 ∧
      (kalloc s3).1 = some 4096 ∧ 4096 ∈ (kalloc s3).2.freelist ∧
      getref (kalloc s3).2 4096 = 1) := by
  refine ⟨⟨?_, ?_⟩, ⟨?_, ?_, ?_⟩, ⟨_, rfl, ?_, ?_, ?_⟩⟩ <;> decide

/-- C3: allocate() returns none exactly when the free list is empty — a
recoverable result, not a halt; when the free list is non-empty it
removes the head page, sets that page's reference count to one, fills
every byte of the page with the nonzero byte 5, and returns the page's
address. (Stated over reachable states: the head of the free list has
reference count zero there, so the increment the code performs sets the
count to exactly one.) -/
theorem kalloc_spec (cfg : KConfig) (s : KState) (hcfg : CfgOk cfg)
    (hr : ReachableK cfg s) :
    ((kalloc s).1 = none ↔ s.freelist = []) ∧
    (∀ p rest, s.freelist = p :: rest →
      (kalloc s).1 = some p ∧ (kalloc s).2.freelist = rest ∧
      getref (kalloc s).2 p = 1 ∧ ∀ off, (kalloc s).2.mem p off = 5) := by
  obtain ⟨hr0, hnd, hvl, hiff⟩ := kInv_reachable cfg s hcfg hr
  constructor
  · cases hfl : s.freelist with
    | nil => simp [kalloc, hfl]
    | cons p rest => simp [kalloc, hfl]
  · intro p rest hfl
    have hp0 : getref s p = 0 :=
      (hiff p (hvl p (by rw [hfl]; exact List.mem_cons_self _ _))).mp
        (by rw [hfl]; exact List.mem_cons_self _ _)
    have hks : kalloc s = (some p, kmemset { addref s p with freelist := rest } p 5) := by
      simp only [kalloc, hfl]
    rw [hks]
    refine ⟨rfl, rfl, ?_, ?_⟩
    · show getref (addref s p) p = 1
      rw [getref_addref_self, hp0]
      omega
    · intro off
      simp [kmemset]

/-- C3 witness: the allocate theorem applied to the kinit state of the
two-page configuration, whose free list has head 8192. -/
theorem kalloc_spec_witness :
    CfgOk cexCfg ∧
    (((kalloc cexInit).1 = none ↔ cexInit.freelist = []) ∧
     (∀ p rest, cexInit.freelist = p :: rest →
       (kalloc cexInit).1 = some p ∧ (kalloc cexInit).2.freelist = rest ∧
       getref (kalloc cexInit).2 p = 1 ∧ ∀ off, (kalloc cexInit).2.mem p off = 5)) :=
  ⟨rfl, kalloc_spec cexCfg cexInit rfl
    ⟨fun _ _ => 0, Relation.ReflTransGen.refl⟩⟩
